import Mathlib

/-!
Verification development for the GLnexus `KeyValue` storage-abstraction layer
(`src/include/KeyValue.h`).

Byte strings (C++ `std::string` / `char*` buffers) are modelled as `List Nat`
(one `Nat` per byte), ordered byte-lexicographically by the standard
lexicographic order on lists.  Machine sizes (`size_t`) are modelled as `Nat`.

The header is an abstract interface: the only executable code it contains is
the `Data` struct (its constructors and `Data::str`) and the default derived
`Reader::get`.  Those are embedded directly from the source.  The semantics of
the pure-virtual operations (`get0`, `iterator`, `put`/`commit`,
`create_collection`, `current`) are not implemented under `src/`; they are
modelled from the spec, as flagged on each such definition.
-/

/-- Bytes of data, one `Nat` per byte. -/
abbrev Bytes := List Nat

/-- Status values of the error taxonomy (`OK`, `NotFound`, `Exists`, plus an
opaque generic failure kind). -/
inductive Status where
  | OK
  | NotFound
  | Exists
  | Invalid
deriving DecidableEq, Repr

/-- `Status::ok()`: the success test used by `Reader::get`. -/
def Status.ok : Status → Bool
  | Status.OK => true
  | _ => false

/-- Embeds `struct Data` (KeyValue.h lines 15-31): a read-only slice holding a
pointer (`none` models a null `char*`; `some buf` models a pointer to the
addressable bytes `buf`) and a size. -/
structure Data where
  data : Option Bytes
  size : Nat
deriving DecidableEq, Repr

/-- `strlen` on a byte buffer: number of bytes before the first NUL byte. -/
def strlen (buf : Bytes) : Nat :=
  (buf.takeWhile (fun b => b ≠ 0)).length

/-- Embeds `Data(const char* data_, size_t size_)`: stores the pointer and the
size verbatim. -/
def Data.ofPtrLen (p : Option Bytes) (n : Nat) : Data :=
  { data := p, size := n }

/-- Embeds `Data(const char* cstr)`: stores the (non-null) pointer and
`strlen(cstr)`. -/
def Data.ofCStr (buf : Bytes) : Data :=
  { data := some buf, size := strlen buf }

/-- Embeds `Data(const std::string& s)`: stores `s.data()` and `s.size()`. -/
def Data.ofString (s : Bytes) : Data :=
  { data := some s, size := s.length }

/-- The no-source state given by the in-class member initializers
`data = nullptr`, `size = 0` (KeyValue.h lines 16-17). -/
def Data.empty : Data :=
  { data := none, size := 0 }

/-- A `Data` is a valid view when its `size` bytes are addressable through its
pointer (a null pointer addresses nothing, so any `size` is vacuously fine to
hold but only `size = 0` is readable; we require `size = 0` there). -/
def Data.wf (d : Data) : Prop :=
  match d.data with
  | some buf => d.size ≤ buf.length
  | none => d.size = 0

/-- Embeds `Data::str()` (KeyValue.h lines 24-30): if the pointer is non-null,
copy `size` bytes from it into an owned string; otherwise return the empty
string. -/
def Data.str (d : Data) : Bytes :=
  match d.data with
  | some buf => buf.take d.size
  | none => []

/-- The result a backend's `get0` deposits: a status, and the output
`shared_ptr<Data>` (`none` models a still-null shared pointer). -/
abbrev Get0Result := Status × Option Data

/-- The `get0` contract (KeyValue.h lines 63-66): on `OK` the output
`shared_ptr` has been set to a buffer. -/
def get0Contract (r : Get0Result) : Prop :=
  r.1 = Status.OK → r.2.isSome

/-- Embeds the default derived `Reader::get` (KeyValue.h lines 71-79) as a
function of the `get0` outcome and the caller-supplied output string `value`:
`Status s = get0(...); if (s.ok()) value = v->str(); return s;`.
Returns the returned status together with the final contents of `value`.
(The `none`-under-`OK` branch is a null-pointer dereference in the source;
`get0Contract` rules it out.) -/
def Reader.get (r : Get0Result) (value : Bytes) : Status × Bytes :=
  let s := r.1
  if s.ok then
    match r.2 with
    | some v => (s, v.str)
    | none => (s, value)
  else
    (s, value)

/-! ## Spec-modelled database semantics

The operations below carry doc comments starting `Modelled from the spec:`;
their implementations (a concrete backend plus the default `DB` method bodies
of `KeyValue.cc`) are not under `src/`, so they are modelled from the spec's
contract language. -/

/-- Keys are byte strings, compared byte-lexicographically (the standard
lexicographic `<` on `List Nat`). -/
abbrev Key := Bytes

/-- Values are byte strings. -/
abbrev Value := Bytes

/-- A collection: its records as an association list ordered strictly by key
(spec §3: keys unique within a collection, totally ordered byte-lexically). -/
abbrev Coll := List (Key × Value)

/-- The sortedness invariant on a collection: record keys strictly increasing. -/
def collSorted (c : Coll) : Prop :=
  List.Pairwise (fun a b : Key × Value => a.1 < b.1) c

/-- Modelled from the spec: inserting/overwriting one record in a key-sorted
collection (the effect of one committed `put` on one collection; spec §3
invariant 1: at most one value per key). -/
def putList (k : Key) (v : Value) : Coll → Coll
  | [] => [(k, v)]
  | (k', v') :: rest =>
    if k = k' then (k, v) :: rest
    else if k < k' then (k, v) :: (k', v') :: rest
    else (k', v') :: putList k v rest

/-- Modelled from the spec: point lookup of a key in a collection. -/
def getList (k : Key) : Coll → Option Value
  | [] => none
  | (k', v') :: rest => if k = k' then some v' else getList k rest

/-- The database state: named collections (spec §3: no two live collections
share a name; names resolved by `DB::collection`). -/
abbrev DBState := List (String × Coll)

/-- Modelled from the spec: resolving a collection name (`DB::collection`). -/
def findColl (name : String) : DBState → Option Coll
  | [] => none
  | (n, c) :: rest => if name = n then some c else findColl name rest

/-- Replace the collection bound to `name` (helper for writes). -/
def updateColl (name : String) (newc : Coll) : DBState → DBState
  | [] => []
  | (n, c) :: rest =>
    if name = n then (n, newc) :: rest else (n, c) :: updateColl name newc rest

/-- Modelled from the spec: `DB::create_collection` — creates a new empty
collection, or returns `Exists` if the name is already bound
(KeyValue.h lines 118-119). -/
def create_collection (name : String) (st : DBState) : Status × DBState :=
  match findColl name st with
  | some _ => (Status.Exists, st)
  | none => (Status.OK, st ++ [(name, [])])

/-- Modelled from the spec: one committed write of `v` under key `k` in the
collection named `c` (the effect of the `DB::put` default, or of one staged
`WriteBatch::put` at commit time).  A write through an unbound handle fails
and leaves the state unchanged. -/
def dbPut (c : String) (k : Key) (v : Value) (st : DBState) : Status × DBState :=
  match findColl c st with
  | some coll => (Status.OK, updateColl c (putList k v coll) st)
  | none => (Status.Invalid, st)

/-- Modelled from the spec: `Reader` point lookup (`get0`/`get`): `OK` with the
bound value, `NotFound` if no corresponding record exists
(KeyValue.h lines 63-64). -/
def dbGet (c : String) (k : Key) (st : DBState) : Status × Option Value :=
  match findColl c st with
  | some coll =>
    match getList k coll with
    | some v => (Status.OK, some v)
    | none => (Status.NotFound, none)
  | none => (Status.NotFound, none)

/-- One staged write of a Write Batch: (collection name, key, value). -/
abbrev WriteOp := String × Key × Value

/-- Modelled from the spec: applying a list of writes in program order
(`WriteBatch::commit` applies the staged `put`s; spec §4.4). -/
def applyBatch (st : DBState) (b : List WriteOp) : DBState :=
  b.foldl (fun s w => (dbPut w.1 w.2.1 w.2.2 s).2) st

/-- Modelled from the spec: `WriteBatch::commit` — applies all staged writes as
a unit, reporting `OK` when every staged write addresses a bound collection. -/
def commitBatch (st : DBState) (b : List WriteOp) : Status × DBState :=
  if b.all (fun w => (findColl w.1 st).isSome) then (Status.OK, applyBatch st b)
  else (Status.Invalid, applyBatch st b)

/-- Modelled from the spec: `DB::current` — a snapshot Reader fixes the state
visible at its creation (spec §3 invariant 3); it is a copy of the state that
later writes to the database do not touch. -/
def currentSnapshot (st : DBState) : DBState := st

/-- Modelled from the spec: `Reader::iterator(coll, key)` positions at the
first record whose key is ≥ `key` (KeyValue.h lines 81-88); the iterator state
is the remaining suffix of the (key-sorted) collection.  `valid()` is the
suffix being nonempty; `next()` drops the head and returns `OK`. -/
def iterSeek (k : Key) (coll : Coll) : Coll :=
  coll.dropWhile (fun p => p.1 < k)

/-- Modelled from the spec: iterator creation through a Reader: status plus
initial iterator state.  On a bound collection the status is `OK` even when
nothing remains to iterate. -/
def mkIterator (c : String) (k : Key) (st : DBState) : Status × Coll :=
  match findColl c st with
  | some coll => (Status.OK, iterSeek k coll)
  | none => (Status.NotFound, [])

/-- `Iterator::valid()` on the modelled iterator state. -/
def iterValid (it : Coll) : Bool := !it.isEmpty

/-- `Iterator::next()` on the modelled iterator state: advance, returning `OK`
(at end of collection `next` still returns `OK` with `valid()` false). -/
def iterNext (it : Coll) : Status × Coll :=
  (Status.OK, it.tail)

/-- The keys an iterator yields across successive `next()` calls while
`valid()` holds, starting from iterator state `it`. -/
def iterKeys (it : Coll) : List Key := it.map Prod.fst

/-- The database-state well-formedness invariant: every collection is strictly
key-sorted. -/
def dbWF (st : DBState) : Prop :=
  ∀ p ∈ st, collSorted p.2

/-! ## Helper lemmas -/

theorem getList_putList_self (k : Key) (v : Value) (c : Coll) :
    getList k (putList k v c) = some v := by
  induction c with
  | nil => simp [putList, getList]
  | cons p rest ih =>
    obtain ⟨k', v'⟩ := p
    by_cases h : k = k'
    · simp [putList, h, getList]
    · by_cases h2 : k < k'
      · simp [putList, h, h2, getList]
      · simp [putList, h, h2, getList, ih]

theorem getList_putList_ne (k k0 : Key) (v : Value) (c : Coll) (h : k ≠ k0) :
    getList k (putList k0 v c) = getList k c := by
  induction c with
  | nil => simp [putList, getList, h]
  | cons p rest ih =>
    obtain ⟨k', v'⟩ := p
    by_cases h1 : k0 = k'
    · subst h1
      simp [putList, getList, h]
    · by_cases h2 : k0 < k'
      · simp [putList, h1, h2, getList, h]
      · simp [putList, h1, h2, getList, ih]

theorem mem_putList (k : Key) (v : Value) (c : Coll) (p : Key × Value)
    (hp : p ∈ putList k v c) : p.1 = k ∨ p ∈ c := by
  induction c with
  | nil =>
    simp [putList] at hp
    subst hp; exact Or.inl rfl
  | cons q rest ih =>
    obtain ⟨k', v'⟩ := q
    by_cases h : k = k'
    · simp [putList, h] at hp
      rcases hp with hp | hp
      · subst hp; exact Or.inl h.symm
      · exact Or.inr (List.mem_cons_of_mem _ hp)
    · by_cases h2 : k < k'
      · simp [putList, h, h2] at hp
        rcases hp with hp | hp | hp
        · subst hp; exact Or.inl rfl
        · exact Or.inr (by simp [hp])
        · exact Or.inr (List.mem_cons_of_mem _ hp)
      · simp [putList, h, h2] at hp
        rcases hp with hp | hp
        · exact Or.inr (by simp [hp])
        · rcases ih hp with h3 | h3
          · exact Or.inl h3
          · exact Or.inr (List.mem_cons_of_mem _ h3)

theorem collSorted_putList (k : Key) (v : Value) (c : Coll) (h : collSorted c) :
    collSorted (putList k v c) := by
  induction c with
  | nil => simp [putList, collSorted]
  | cons q rest ih =>
    obtain ⟨k', v'⟩ := q
    rw [collSorted, List.pairwise_cons] at h
    obtain ⟨hhead, htail⟩ := h
    by_cases h1 : k = k'
    · rw [putList]
      simp [h1]
      rw [collSorted, List.pairwise_cons]
      exact ⟨fun b hb => hhead b hb, htail⟩
    · by_cases h2 : k < k'
      · rw [putList]
        simp [h1, h2]
        rw [collSorted, List.pairwise_cons]
        constructor
        · intro b hb
          rcases List.mem_cons.mp hb with hb | hb
          · rw [hb]; exact h2
          · exact lt_trans h2 (hhead b hb)
        · rw [List.pairwise_cons]
          exact ⟨hhead, htail⟩
      · rw [putList]
        simp [h1, h2]
        rw [collSorted, List.pairwise_cons]
        constructor
        · intro b hb
          have hk : k' < k :=
            lt_of_le_of_ne (le_of_not_lt h2) (fun e => h1 e.symm)
          rcases mem_putList k v rest b hb with h3 | h3
          · rw [h3]; exact hk
          · exact hhead b h3
        · exact ih htail

theorem findColl_updateColl_self (n : String) (x : Coll) (st : DBState) :
    findColl n (updateColl n x st) = (findColl n st).map (fun _ => x) := by
  induction st with
  | nil => simp [findColl, updateColl]
  | cons p rest ih =>
    obtain ⟨m, c⟩ := p
    by_cases h : n = m
    · simp [findColl, updateColl, h]
    · simp [findColl, updateColl, h, ih]

theorem findColl_updateColl_ne (m n : String) (x : Coll) (st : DBState)
    (h : m ≠ n) : findColl m (updateColl n x st) = findColl m st := by
  induction st with
  | nil => simp [findColl, updateColl]
  | cons p rest ih =>
    obtain ⟨m', c⟩ := p
    by_cases h1 : n = m'
    · subst h1
      simp [findColl, updateColl, h]
    · by_cases h2 : m = m'
      · simp [findColl, updateColl, h1, h2]
      · simp [findColl, updateColl, h1, h2, ih]

theorem findColl_append_fresh (n : String) (c : Coll) (st : DBState)
    (h : findColl n st = none) : findColl n (st ++ [(n, c)]) = some c := by
  induction st with
  | nil => simp [findColl]
  | cons p rest ih =>
    obtain ⟨m, c'⟩ := p
    by_cases h1 : n = m
    · simp [findColl, h1] at h
    · simp [findColl, h1] at h ⊢
      exact ih h

theorem isSome_findColl_dbPut (n c : String) (k : Key) (v : Value)
    (st : DBState) :
    (findColl n (dbPut c k v st).2).isSome = (findColl n st).isSome := by
  rw [dbPut]
  cases hf : findColl c st with
  | none => rfl
  | some coll =>
    by_cases h : n = c
    · subst h
      simp [findColl_updateColl_self, hf]
    · simp [findColl_updateColl_ne n c _ st h]

theorem dbGet_dbPut_self (c : String) (k : Key) (v : Value) (st : DBState)
    (h : (findColl c st).isSome) :
    dbGet c k (dbPut c k v st).2 = (Status.OK, some v) := by
  rw [dbPut]
  cases hf : findColl c st with
  | none => rw [hf] at h; simp at h
  | some coll =>
    simp only
    rw [dbGet, findColl_updateColl_self, hf]
    simp [getList_putList_self]

theorem dbGet_dbPut_other (c c' : String) (k k' : Key) (v : Value)
    (st : DBState) (h : ¬(c' = c ∧ k' = k)) :
    dbGet c k (dbPut c' k' v st).2 = dbGet c k st := by
  rw [dbPut]
  cases hf : findColl c' st with
  | none => rfl
  | some coll =>
    simp only
    by_cases hc : c = c'
    · subst hc
      have hk : k ≠ k' := fun e => h ⟨rfl, e.symm⟩
      rw [dbGet, findColl_updateColl_self, hf, dbGet, hf]
      simp [getList_putList_ne k k' v coll hk]
    · rw [dbGet, findColl_updateColl_ne c c' _ st hc, dbGet]

theorem applyBatch_nil (st : DBState) : applyBatch st [] = st := rfl

theorem applyBatch_cons (st : DBState) (w : WriteOp) (b : List WriteOp) :
    applyBatch st (w :: b) = applyBatch (dbPut w.1 w.2.1 w.2.2 st).2 b := rfl

theorem applyBatch_append (st : DBState) (b1 b2 : List WriteOp) :
    applyBatch st (b1 ++ b2) = applyBatch (applyBatch st b1) b2 := by
  rw [applyBatch, List.foldl_append]
  rfl

theorem dbGet_applyBatch_untouched (c : String) (k : Key) (st : DBState)
    (b : List WriteOp) (h : ∀ w ∈ b, ¬(w.1 = c ∧ w.2.1 = k)) :
    dbGet c k (applyBatch st b) = dbGet c k st := by
  induction b generalizing st with
  | nil => rfl
  | cons w rest ih =>
    rw [applyBatch_cons]
    rw [ih _ (fun w' hw' => h w' (List.mem_cons_of_mem _ hw'))]
    exact dbGet_dbPut_other c w.1 k w.2.1 w.2.2 st (h w (List.mem_cons_self _ _))

theorem isSome_findColl_applyBatch (n : String) (st : DBState)
    (b : List WriteOp) :
    (findColl n (applyBatch st b)).isSome = (findColl n st).isSome := by
  induction b generalizing st with
  | nil => rfl
  | cons w rest ih =>
    rw [applyBatch_cons, ih]
    exact isSome_findColl_dbPut n w.1 w.2.1 w.2.2 st

/-! ## Claim theorems -/

/-- C8: Constructing a buffer view never fails: every supported construction
(from a pointer to an addressable byte range plus a length within it, from a
null-terminated byte sequence, from an owned byte sequence, and from no source
at all) is total and yields a valid view, and the no-source construction
produces an empty view (null pointer, size 0, empty materialization). -/
theorem c8_data_construction_total :
    (∀ (buf : Bytes) (n : Nat), n ≤ buf.length → (Data.ofPtrLen (some buf) n).wf) ∧
    (∀ buf : Bytes, (Data.ofCStr buf).wf) ∧
    (∀ s : Bytes, (Data.ofString s).wf) ∧
    (Data.empty.wf ∧ Data.empty.data = none ∧ Data.empty.size = 0 ∧
      Data.empty.str = []) := by
  refine ⟨fun buf n h => h, fun buf => ?_, fun s => le_refl _, rfl, rfl, rfl, rfl⟩
  show strlen buf ≤ buf.length
  exact (List.takeWhile_sublist _).length_le

/-- Witness for C8 at concrete inputs. -/
theorem c8_witness :
    (Data.ofPtrLen (some [7, 8]) 1).wf ∧ (Data.ofCStr [65, 0, 66]).wf ∧
    (Data.ofString [1, 2]).wf ∧ Data.empty.str = [] :=
  ⟨c8_data_construction_total.1 [7, 8] 1 (by decide),
   c8_data_construction_total.2.1 [65, 0, 66],
   c8_data_construction_total.2.2.1 [1, 2],
   c8_data_construction_total.2.2.2.2.2.2⟩

/-- C9: `Data::str` materializes an owned copy of the viewed range: with a
present pointer it returns exactly `size` bytes equal to the viewed bytes,
with an absent pointer it returns the empty string, and a zero-length present
view is indistinguishable from the absent-source view through `str`. -/
theorem c9_str_materializes :
    (∀ (d : Data) (buf : Bytes), d.data = some buf → d.size ≤ buf.length →
      d.str.length = d.size ∧ d.str = buf.take d.size) ∧
    (∀ d : Data, d.data = none → d.str = []) ∧
    (∀ buf : Bytes, (Data.ofPtrLen (some buf) 0).str = Data.empty.str) := by
  refine ⟨fun d buf hd hle => ?_, fun d hd => ?_, fun buf => ?_⟩
  · rw [Data.str, hd]
    exact ⟨by rw [List.length_take]; exact Nat.min_eq_left hle, rfl⟩
  · rw [Data.str, hd]
  · rw [Data.str, Data.str]
    rfl

/-- Witness for C9 at a concrete view. -/
theorem c9_witness :
    (Data.mk (some [3, 4, 5]) 2).str.length = 2 ∧
    (Data.mk (some [3, 4, 5]) 2).str = [3, 4] ∧
    (Data.mk none 0).str = [] ∧
    (Data.ofPtrLen (some [9]) 0).str = Data.empty.str :=
  ⟨(c9_str_materializes.1 (Data.mk (some [3, 4, 5]) 2) [3, 4, 5] rfl
      (by decide)).1,
   (c9_str_materializes.1 (Data.mk (some [3, 4, 5]) 2) [3, 4, 5] rfl
      (by decide)).2,
   c9_str_materializes.2.1 (Data.mk none 0) rfl,
   c9_str_materializes.2.2 [9]⟩

/-- C5: the derived `Reader::get` returns exactly the status `get0` returned,
and on `OK` assigns the caller's string an owned copy (`str()`) of the buffer
`get0` produced. -/
theorem c5_get_matches_get0 (r : Get0Result) (value : Bytes)
    (h : get0Contract r) :
    (Reader.get r value).1 = r.1 ∧
    (∀ d : Data, r.2 = some d → r.1 = Status.OK →
      (Reader.get r value).2 = d.str) := by
  rcases r with ⟨s, v⟩
  cases s with
  | OK =>
    cases v with
    | none => exact absurd (h rfl) (by simp)
    | some d =>
      refine ⟨rfl, fun d' hd' _ => ?_⟩
      rw [Option.some_inj] at hd'
      subst hd'
      rfl
  | NotFound => exact ⟨rfl, fun d hd hs => by simp at hs⟩
  | Exists => exact ⟨rfl, fun d hd hs => by simp at hs⟩
  | Invalid => exact ⟨rfl, fun d hd hs => by simp at hs⟩

/-- Witness for C5: a successful lookup of the bytes `[1, 2]`. -/
theorem c5_witness :
    (Reader.get (Status.OK, some (Data.mk (some [1, 2]) 2)) [9]).1 =
      Status.OK ∧
    (Reader.get (Status.OK, some (Data.mk (some [1, 2]) 2)) [9]).2 =
      (Data.mk (some [1, 2]) 2).str :=
  ⟨(c5_get_matches_get0 (Status.OK, some (Data.mk (some [1, 2]) 2)) [9]
      (fun _ => rfl)).1,
   (c5_get_matches_get0 (Status.OK, some (Data.mk (some [1, 2]) 2)) [9]
      (fun _ => rfl)).2 _ rfl rfl⟩

/-- C10: when `get0` returns a non-`OK` status, the derived `Reader::get`
leaves the caller-supplied output string completely unchanged (and passes the
status through). -/
theorem c10_failed_get_preserves_value (r : Get0Result) (value : Bytes)
    (h : r.1 ≠ Status.OK) : Reader.get r value = (r.1, value) := by
  rcases r with ⟨s, v⟩
  cases s with
  | OK => exact absurd rfl h
  | NotFound => cases v <;> rfl
  | Exists => cases v <;> rfl
  | Invalid => cases v <;> rfl

/-- Witness for C10: a `NotFound` lookup leaves the caller's bytes intact. -/
theorem c10_witness :
    Reader.get (Status.NotFound, none) [1, 2] = (Status.NotFound, [1, 2]) :=
  c10_failed_get_preserves_value (Status.NotFound, none) [1, 2] (by decide)

theorem dbPut_ok_iff (c : String) (k : Key) (v : Value) (st : DBState) :
    (dbPut c k v st).1 = Status.OK ↔ (findColl c st).isSome := by
  rw [dbPut]
  cases findColl c st <;> simp

theorem commitBatch_snd (st : DBState) (b : List WriteOp) :
    (commitBatch st b).2 = applyBatch st b := by
  rw [commitBatch]
  split <;> rfl

theorem commitBatch_ok_bound (st : DBState) (b : List WriteOp)
    (h : (commitBatch st b).1 = Status.OK) :
    ∀ w ∈ b, (findColl w.1 st).isSome := by
  rw [commitBatch] at h
  split at h
  · next hall =>
    intro w hw
    have := List.all_eq_true.mp hall w hw
    simpa using this
  · simp at h

/-- C6: `create_collection` succeeds then fails with `Exists` on a repeated
name, and in general returns `Exists` exactly when the name is already bound
to a live collection. -/
theorem c6_create_collection_exists (name : String) (st : DBState) :
    ((create_collection name st).1 = Status.OK →
      create_collection name (create_collection name st).2 =
        (Status.Exists, (create_collection name st).2)) ∧
    ((create_collection name st).1 = Status.Exists ↔
      (findColl name st).isSome) := by
  cases hf : findColl name st with
  | some c =>
    constructor
    · intro h
      rw [create_collection, hf] at h
      simp at h
    · rw [create_collection, hf]
      simp
  | none =>
    have hcc : create_collection name st = (Status.OK, st ++ [(name, [])]) := by
      rw [create_collection, hf]
    constructor
    · intro _
      rw [hcc]
      show create_collection name (st ++ [(name, [])]) =
        (Status.Exists, st ++ [(name, [])])
      rw [create_collection, findColl_append_fresh name [] st hf]
    · rw [hcc]
      simp

/-- Witness for C6: creating "X" twice from the empty database. -/
theorem c6_witness :
    create_collection "X" (create_collection "X" []).2 =
      (Status.Exists, (create_collection "X" []).2) ∧
    ((create_collection "X" [("X", [])]).1 = Status.Exists ↔
      (findColl "X" [("X", [])]).isSome) :=
  ⟨(c6_create_collection_exists "X" []).1 rfl,
   (c6_create_collection_exists "X" [("X", [])]).2⟩

/-- C1: a successful `put(C,k,v)` — through the database's default put, or
staged in a Write Batch whose commit returns `OK` — followed by no further
write to key `k` in collection `C` (neither later in the same batch nor in
later committed writes) makes `get(C,k)` return `OK` with exactly `v`. -/
theorem c1_put_then_get (st : DBState) (c : String) (k : Key) (v : Value)
    (later : List WriteOp) (hl : ∀ w ∈ later, ¬(w.1 = c ∧ w.2.1 = k)) :
    ((dbPut c k v st).1 = Status.OK →
      dbGet c k (applyBatch (dbPut c k v st).2 later) = (Status.OK, some v)) ∧
    (∀ b1 b2 : List WriteOp,
      (∀ w ∈ b2, ¬(w.1 = c ∧ w.2.1 = k)) →
      (commitBatch st (b1 ++ (c, (k, v)) :: b2)).1 = Status.OK →
      dbGet c k
          (applyBatch (commitBatch st (b1 ++ (c, (k, v)) :: b2)).2 later) =
        (Status.OK, some v)) := by
  constructor
  · intro hok
    rw [dbGet_applyBatch_untouched c k _ later hl]
    exact dbGet_dbPut_self c k v st ((dbPut_ok_iff c k v st).mp hok)
  · intro b1 b2 hb2 hco
    have hbound : (findColl c st).isSome :=
      commitBatch_ok_bound st _ hco (c, (k, v))
        (List.mem_append_right b1 (List.mem_cons_self _ _))
    rw [dbGet_applyBatch_untouched c k _ later hl, commitBatch_snd,
      applyBatch_append, applyBatch_cons]
    rw [dbGet_applyBatch_untouched c k _ b2 hb2]
    refine dbGet_dbPut_self c k v (applyBatch st b1) ?_
    rw [isSome_findColl_applyBatch]
    exact hbound

/-- Witness for C1: put `[49]` under key `[97]` in collection "X", both via
the default put (followed by a write to a different key) and via a batch
containing a later write to a different key. -/
theorem c1_witness :
    dbGet "X" [97]
        (applyBatch (dbPut "X" [97] [49] [("X", [])]).2
          [("X", ([98], [2]))]) = (Status.OK, some [49]) ∧
    dbGet "X" [97]
        (applyBatch
          (commitBatch [("X", [])]
            ([] ++ ("X", ([97], [49])) :: [("X", ([98], [3]))])).2
          [("X", ([98], [2]))]) = (Status.OK, some [49]) := by
  have h := c1_put_then_get [("X", [])] "X" [97] [49] [("X", ([98], [2]))]
    (by decide)
  exact ⟨h.1 rfl, h.2 [] [("X", ([98], [3]))] (by decide) rfl⟩

/-- C7: within a single Write Batch, when `put(c,k,v1)` is staged and
`put(c,k,v2)` is staged later in program order with no further staged write to
`(c,k)`, a successful commit leaves `get(c,k)` returning `OK` with `v2` — the
last staged write for a duplicated key wins. -/
theorem c7_last_write_wins (st : DBState) (c : String) (k : Key)
    (v1 v2 : Value) (b1 b2 b3 : List WriteOp)
    (h3 : ∀ w ∈ b3, ¬(w.1 = c ∧ w.2.1 = k))
    (hco : (commitBatch st
        (b1 ++ (c, (k, v1)) :: (b2 ++ (c, (k, v2)) :: b3))).1 = Status.OK) :
    dbGet c k
        (commitBatch st
          (b1 ++ (c, (k, v1)) :: (b2 ++ (c, (k, v2)) :: b3))).2 =
      (Status.OK, some v2) := by
  have hbound : (findColl c st).isSome :=
    commitBatch_ok_bound st _ hco (c, (k, v2))
      (List.mem_append_right b1
        (List.mem_cons_of_mem _ (List.mem_append_right b2
          (List.mem_cons_self _ _))))
  rw [commitBatch_snd, applyBatch_append, applyBatch_cons, applyBatch_append,
    applyBatch_cons]
  rw [dbGet_applyBatch_untouched c k _ b3 h3]
  refine dbGet_dbPut_self c k v2 _ ?_
  rw [isSome_findColl_applyBatch, isSome_findColl_dbPut,
    isSome_findColl_applyBatch]
  exact hbound

/-- Witness for C7: staging `[10]` then `[20]` under the same key in one
batch; after commit the lookup yields `[20]`. -/
theorem c7_witness :
    dbGet "X" [97]
        (commitBatch [("X", [])]
          ([] ++ ("X", ([97], [10])) :: ([] ++ ("X", ([97], [20])) :: []))).2 =
      (Status.OK, some [20]) :=
  c7_last_write_wins [("X", [])] "X" [97] [10] [20] [] [] [] (by decide) rfl

/-- C2: a snapshot Reader obtained before a write is committed observes the
state fixed at its creation: its lookups and iterators coincide with the
creation-time state, so it never returns a value it did not hold at creation —
even while the same write, committed to the database afterwards, is observable
through the database itself. -/
theorem c2_snapshot_isolation (st : DBState) (b1 b2 : List WriteOp)
    (c : String) (k : Key) (v : Value)
    (hnotv : dbGet c k st ≠ (Status.OK, some v))
    (hb2 : ∀ w ∈ b2, ¬(w.1 = c ∧ w.2.1 = k)) :
    (∀ (c' : String) (k' : Key),
      dbGet c' k' (currentSnapshot st) = dbGet c' k' st) ∧
    (∀ (c' : String) (k' : Key),
      mkIterator c' k' (currentSnapshot st) = mkIterator c' k' st) ∧
    dbGet c k (currentSnapshot st) ≠ (Status.OK, some v) ∧
    ((findColl c st).isSome →
      dbGet c k (applyBatch st (b1 ++ (c, (k, v)) :: b2)) =
        (Status.OK, some v)) := by
  refine ⟨fun c' k' => rfl, fun c' k' => rfl, hnotv, fun hbound => ?_⟩
  rw [applyBatch_append, applyBatch_cons,
    dbGet_applyBatch_untouched c k _ b2 hb2]
  refine dbGet_dbPut_self c k v (applyBatch st b1) ?_
  rw [isSome_findColl_applyBatch]
  exact hbound

/-- Witness for C2: a snapshot of a one-record state does not observe a write
to key `[99]` committed after it, while the database does. -/
theorem c2_witness :
    dbGet "X" [99] (currentSnapshot [("X", [([97], [49])])]) ≠
      (Status.OK, some [51]) ∧
    dbGet "X" [99]
        (applyBatch [("X", [([97], [49])])]
          ([] ++ ("X", ([99], [51])) :: [])) = (Status.OK, some [51]) := by
  have h := c2_snapshot_isolation [("X", [([97], [49])])] [] [] "X" [99] [51]
    (by decide) (by decide)
  exact ⟨h.2.2.1, h.2.2.2 rfl⟩

theorem head_iterSeek_not_lt (k : Key) (coll : Coll) (p : Key × Value)
    (h : (iterSeek k coll).head? = some p) : ¬ p.1 < k := by
  induction coll with
  | nil => simp [iterSeek] at h
  | cons q rest ih =>
    rw [iterSeek, List.dropWhile_cons] at h
    by_cases hq : q.1 < k
    · rw [if_pos (decide_eq_true hq)] at h
      exact ih h
    · rw [if_neg (fun he => hq (of_decide_eq_true he))] at h
      have hqp : q = p := by simpa using h
      subst hqp
      exact hq

theorem mem_iterSeek_of_not_lt (k : Key) (coll : Coll) (p : Key × Value)
    (hp : p ∈ coll) (hge : ¬ p.1 < k) : p ∈ iterSeek k coll := by
  induction coll with
  | nil => simp at hp
  | cons q rest ih =>
    rw [iterSeek, List.dropWhile_cons]
    by_cases hq : q.1 < k
    · rw [if_pos (decide_eq_true hq)]
      rcases List.mem_cons.mp hp with h1 | h1
      · rw [h1] at hge; exact absurd hq hge
      · exact ih h1
    · rw [if_neg (fun he => hq (of_decide_eq_true he))]
      exact hp

theorem pairwise_iterSeek (k : Key) (coll : Coll) (hs : collSorted coll) :
    List.Pairwise (fun a b : Key × Value => a.1 < b.1) (iterSeek k coll) := by
  unfold collSorted at hs
  exact List.Pairwise.sublist (List.dropWhile_sublist _) hs

/-- C3: `iterator(C,k)` positions at the first record of `C` whose key is ≥
`k` — the records it skips are exactly an initial segment with keys < `k`, the
positioned record has key ≥ `k` and is key-minimal among the records ≥ `k`,
and an empty `k` positions at the first record — and when no record ≥ `k`
exists the returned status is still `OK` with `valid()` false. -/
theorem c3_iterator_positioning (st : DBState) (c : String) (k : Key)
    (coll : Coll) (hf : findColl c st = some coll) (hs : collSorted coll) :
    (mkIterator c k st).1 = Status.OK ∧
    (mkIterator c k st).2 = iterSeek k coll ∧
    (∃ pre, pre ++ iterSeek k coll = coll ∧ ∀ p ∈ pre, p.1 < k) ∧
    (∀ p : Key × Value, (iterSeek k coll).head? = some p →
      k ≤ p.1 ∧ ∀ q ∈ coll, k ≤ q.1 → p.1 ≤ q.1) ∧
    (k = [] → iterSeek k coll = coll) ∧
    ((∀ p ∈ coll, p.1 < k) →
      (mkIterator c k st).1 = Status.OK ∧
        iterValid (mkIterator c k st).2 = false) := by
  have hit : (mkIterator c k st).2 = iterSeek k coll := by
    rw [mkIterator, hf]
  have hst : (mkIterator c k st).1 = Status.OK := by
    rw [mkIterator, hf]
  refine ⟨hst, hit, ?_, ?_, ?_, ?_⟩
  · refine ⟨coll.takeWhile (fun p => p.1 < k), ?_, ?_⟩
    · exact List.takeWhile_append_dropWhile _ _
    · intro p hp
      have h2 := List.mem_takeWhile_imp hp
      simp only [decide_eq_true_eq] at h2
      exact h2
  · intro p hp
    have hge : ¬ p.1 < k := head_iterSeek_not_lt k coll p hp
    refine ⟨not_lt.mp hge, fun q hq hkq => ?_⟩
    have hqmem : q ∈ iterSeek k coll :=
      mem_iterSeek_of_not_lt k coll q hq (not_lt.mpr hkq)
    have hpw := pairwise_iterSeek k coll hs
    cases hseek : iterSeek k coll with
    | nil => rw [hseek] at hp; simp at hp
    | cons p0 tl =>
      rw [hseek] at hp hqmem hpw
      have hp0 : p0 = p := by simpa using hp
      subst hp0
      rcases List.mem_cons.mp hqmem with h1 | h1
      · rw [h1]
      · exact le_of_lt ((List.pairwise_cons.mp hpw).1 q h1)
  · intro hk
    subst hk
    cases coll with
    | nil => rfl
    | cons q rest =>
      have hnil : ¬ (q.1 < ([] : Key)) := List.Lex.not_nil_right _ _
      rw [iterSeek, List.dropWhile_cons,
        if_neg (fun he => hnil (of_decide_eq_true he))]
  · intro hall
    refine ⟨hst, ?_⟩
    rw [hit]
    have hnil : iterSeek k coll = [] := by
      rw [iterSeek]
      exact List.dropWhile_eq_nil_iff.mpr (fun x hx => decide_eq_true (hall x hx))
    rw [hnil]
    rfl

/-- Witness for C3: seeking key `[98]` in a two-record collection lands on the
record with key `[99]`; seeking past the last key gives a valid-false `OK`
iterator. -/
theorem c3_witness :
    (mkIterator "X" [98] [("X", [([97], [1]), ([99], [2])])]).1 =
      Status.OK ∧
    (mkIterator "X" [98] [("X", [([97], [1]), ([99], [2])])]).2 =
      iterSeek [98] [([97], [1]), ([99], [2])] ∧
    iterValid (mkIterator "X" [100] [("X", [([97], [1]), ([99], [2])])]).2 =
      false := by
  have h1 := c3_iterator_positioning [("X", [([97], [1]), ([99], [2])])]
    "X" [98] [([97], [1]), ([99], [2])] rfl
    (by unfold collSorted; decide)
  have h2 := c3_iterator_positioning [("X", [([97], [1]), ([99], [2])])]
    "X" [100] [([97], [1]), ([99], [2])] rfl
    (by unfold collSorted; decide)
  exact ⟨h1.1, h1.2.1, (h2.2.2.2.2.2 (by decide)).2⟩

/-- C4: the keys an iterator yields across successive successful `next()`
calls while `valid()` holds are strictly increasing in byte-lexicographic
order: the yield sequence of any iterator obtained from a Reader is pairwise
`<`, and each `next()` returns `OK` and peels exactly the current key off that
sequence. -/
theorem c4_iteration_increasing (st : DBState) (c : String) (k : Key)
    (coll : Coll) (hf : findColl c st = some coll) (hs : collSorted coll) :
    List.Pairwise (fun a b : Key => a < b)
      (iterKeys (mkIterator c k st).2) ∧
    (∀ (it : Coll) (p : Key × Value), it.head? = some p →
      (iterNext it).1 = Status.OK ∧
      iterKeys it = p.1 :: iterKeys (iterNext it).2) := by
  constructor
  · rw [mkIterator, hf]
    simp only
    exact List.pairwise_map.mpr (pairwise_iterSeek k coll hs)
  · intro it p hp
    cases it with
    | nil => simp at hp
    | cons q tl =>
      have hqp : q = p := by simpa using hp
      subst hqp
      exact ⟨rfl, rfl⟩

/-- Witness for C4: the iterator over a three-record collection yields the
strictly increasing key sequence `[97] < [98] < [99]`. -/
theorem c4_witness :
    List.Pairwise (fun a b : Key => a < b)
      (iterKeys
        (mkIterator "X" []
          [("X", [([97], [1]), ([98], [2]), ([99], [3])])]).2) ∧
    iterKeys [([97], ([1] : Value)), ([98], [2])] =
      [97] :: iterKeys (iterNext [([97], ([1] : Value)), ([98], [2])]).2 := by
  have h := c4_iteration_increasing
    [("X", [([97], [1]), ([98], [2]), ([99], [3])])] "X" []
    [([97], [1]), ([98], [2]), ([99], [3])] rfl
    (by unfold collSorted; decide)
  exact ⟨h.1, (h.2 [([97], [1]), ([98], [2])] ([97], [1]) rfl).2⟩

/-! ## The sortedness invariant holds in every reachable state -/

theorem dbWF_nil : dbWF [] :=
  fun p hp => absurd hp (List.not_mem_nil p)

theorem findColl_sorted (n : String) (st : DBState) (c : Coll)
    (hwf : dbWF st) (hf : findColl n st = some c) : collSorted c := by
  induction st with
  | nil => simp [findColl] at hf
  | cons p rest ih =>
    obtain ⟨m, c'⟩ := p
    rw [findColl] at hf
    by_cases h : n = m
    · rw [if_pos h] at hf
      rw [Option.some_inj] at hf
      subst hf
      exact hwf (m, c') (List.mem_cons_self _ _)
    · rw [if_neg h] at hf
      exact ih (fun q hq => hwf q (List.mem_cons_of_mem _ hq)) hf

theorem dbWF_updateColl (n : String) (x : Coll) (st : DBState)
    (hwf : dbWF st) (hx : collSorted x) : dbWF (updateColl n x st) := by
  induction st with
  | nil => exact hwf
  | cons p rest ih =>
    obtain ⟨m, c'⟩ := p
    rw [updateColl]
    by_cases h : n = m
    · rw [if_pos h]
      intro q hq
      rcases List.mem_cons.mp hq with h1 | h1
      · rw [h1]; exact hx
      · exact hwf q (List.mem_cons_of_mem _ h1)
    · rw [if_neg h]
      intro q hq
      rcases List.mem_cons.mp hq with h1 | h1
      · rw [h1]; exact hwf (m, c') (List.mem_cons_self _ _)
      · exact ih (fun q' hq' => hwf q' (List.mem_cons_of_mem _ hq')) q h1

theorem dbWF_dbPut (c : String) (k : Key) (v : Value) (st : DBState)
    (hwf : dbWF st) : dbWF (dbPut c k v st).2 := by
  rw [dbPut]
  cases hf : findColl c st with
  | none => exact hwf
  | some coll =>
    exact dbWF_updateColl c _ st hwf
      (collSorted_putList k v coll (findColl_sorted c st coll hwf hf))

theorem dbWF_create_collection (name : String) (st : DBState)
    (hwf : dbWF st) : dbWF (create_collection name st).2 := by
  rw [create_collection]
  cases findColl name st with
  | some _ => exact hwf
  | none =>
    intro q hq
    rcases List.mem_append.mp hq with h1 | h1
    · exact hwf q h1
    · have : q = (name, []) := by simpa using h1
      rw [this]
      exact List.Pairwise.nil

theorem dbWF_applyBatch (st : DBState) (b : List WriteOp) (hwf : dbWF st) :
    dbWF (applyBatch st b) := by
  induction b generalizing st with
  | nil => exact hwf
  | cons w rest ih =>
    rw [applyBatch_cons]
    exact ih _ (dbWF_dbPut w.1 w.2.1 w.2.2 st hwf)
